import Mathlib

/-!
Verification of the finstat retrieval backend.

This file gives a shallow embedding, over `List Char` strings and `ℚ`
arithmetic, of the scoring, chunking and request-handling code in
`backend/app/utils/hybrid_search.py`, `backend/app/utils/vector_store.py`,
`backend/app/utils/query_processor.py` and `backend/app/api/chat.py`, and
proves or refutes the specification claims about that code.

Modelling conventions:
* Python `str` values are `List Char` (all inputs of interest are ASCII).
* Python `float` arithmetic is modelled exactly over `ℚ`; `math.log` is an
  abstract parameter `lg : ℚ → ℚ` about which theorems assume only the
  properties of the real logarithm that they need.
* A Python expression that can raise `ZeroDivisionError` is modelled with
  `checkedDiv`, returning `none` exactly when the divisor is zero; functions
  that evaluate such expressions return `Option` values, `none` meaning the
  Python code raises.
* Python dicts keyed by the index `0..N-1` are modelled as positionally
  indexed lists.
-/

namespace Finstat

attribute [local semireducible] Rat.add Rat.sub Rat.mul Rat.inv Rat.ofScientific

/-- The six ASCII characters Python `str.strip` / `str.split()` / `\s`
treat as whitespace. -/
def isSpc (c : Char) : Bool :=
  c = ' ' || c = '\t' || c = '\n' || c = '\r' || c = Char.ofNat 11 || c = Char.ofNat 12

/-- Python regex word character (`\w`) for ASCII input. -/
def isWordChar (c : Char) : Bool :=
  c.isAlphanum || c = '_'

/-- ASCII `str.lower`. -/
def pyLower (s : List Char) : List Char :=
  s.map Char.toLower

/-- Python `needle in hay` substring test (true for the empty needle). -/
def containsSub (n : List Char) : List Char → Bool
  | [] => n.isEmpty
  | c :: t => n.isPrefixOf (c :: t) || containsSub n t

/-- Auxiliary for `countSubstr`: counts non-overlapping occurrences of the
nonempty needle `n :: ns`, scanning left to right as Python `str.count`
does. The `Nat` argument is recursion fuel; every step consumes at least
one character of the scanned string, so fuel equal to its length is
enough and the zero-fuel case is unreachable (`countFromF_fuel`). -/
def countFromF (n : Char) (ns : List Char) : Nat → List Char → Nat
  | 0, _ => 0
  | _ + 1, [] => 0
  | fuel + 1, c :: rest =>
    if (n :: ns).isPrefixOf (c :: rest) then 1 + countFromF n ns fuel (rest.drop ns.length)
    else countFromF n ns fuel rest

/-- Python `hay.count(needle)`: non-overlapping occurrences, with the Python
convention `s.count('') == len(s) + 1`. -/
def countSubstr (needle hay : List Char) : Nat :=
  match needle with
  | [] => hay.length + 1
  | n :: ns => countFromF n ns hay.length hay

/-- The fuel of `countFromF` is irrelevant as soon as it covers the length
of the scanned string: the scanner never runs out. -/
theorem countFromF_fuel (n : Char) (ns : List Char) :
    ∀ fuel hay, hay.length ≤ fuel →
      countFromF n ns fuel hay = countFromF n ns hay.length hay := by
  intro fuel
  induction fuel using Nat.strong_induction_on with
  | _ fuel ih =>
    intro hay hle
    match fuel, hay with
    | 0, hay =>
      have : hay.length = 0 := Nat.le_zero.mp hle
      rw [this]
    | fuel + 1, [] => rfl
    | fuel + 1, c :: rest =>
      simp only [List.length_cons] at hle ⊢
      show countFromF n ns (fuel + 1) (c :: rest) =
        countFromF n ns (rest.length + 1) (c :: rest)
      unfold countFromF
      split
      · have hd : (rest.drop ns.length).length ≤ rest.length := by
          simp [List.length_drop]
        rw [ih fuel (by omega) _ (by omega),
          ih rest.length (by omega) _ (by omega)]
      · rw [ih fuel (by omega) _ (by omega),
          ih rest.length (by omega) _ (by omega)]

/-- `len(text.split())`: the number of maximal runs of non-whitespace
characters. The Bool argument records whether the previous character was
part of a word. -/
def countWordsAux : Bool → List Char → Nat
  | _, [] => 0
  | inw, c :: rest =>
    if isSpc c then countWordsAux false rest
    else (if inw then 0 else 1) + countWordsAux true rest

/-- Number of whitespace-separated words of a string, as in Python
`len(s.split())`. -/
def countWords (s : List Char) : Nat :=
  countWordsAux false s

/-- The fixed chunk separator `"\n\n"`. -/
def nl2 : List Char := ['\n', '\n']

/-- Python `sep.join(xs)` for list-of-char strings. -/
def joinSep (sep : List Char) : List (List Char) → List Char
  | [] => []
  | [x] => x
  | x :: y :: t => x ++ sep ++ joinSep sep (y :: t)

/-- Sum of the lengths of a list of strings. -/
def sumLen (l : List (List Char)) : Nat :=
  (l.map List.length).sum

/-- Leading-whitespace removal (`str.lstrip` over the ASCII space set). -/
def stripL (s : List Char) : List Char :=
  s.dropWhile isSpc

/-- Trailing-whitespace removal (`str.rstrip`). -/
def stripR (s : List Char) : List Char :=
  (s.reverse.dropWhile isSpc).reverse

/-- Python `str.strip()`. -/
def pyStrip (s : List Char) : List Char :=
  stripR (stripL s)

/-- `text.split('\n\n')`: split on the fixed two-character separator,
left to right, non-overlapping, as Python `str.split` does. -/
def splitNl2 : List Char → List (List Char)
  | [] => [[]]
  | '\n' :: '\n' :: rest => [] :: splitNl2 rest
  | c :: rest =>
    match splitNl2 rest with
    | [] => [[c]]
    | h :: t => (c :: h) :: t

/-- `current_chunk[-overlap:] if len(current_chunk) > overlap else ""` with
the default `overlap = 50` (from `VectorStore._chunk_text`). -/
def tail50 (current : List Char) : List Char :=
  if current.length > 50 then current.drop (current.length - 50) else []

/-- The paragraph loop of `VectorStore._chunk_text` with the default
parameters `chunk_size = 500`, `overlap = 50`, `max_chunk_len = 1000`.
`current` is the accumulated `current_chunk`; the final non-empty stripped
remainder is appended as in the Python epilogue. -/
def chunkLoop : List (List Char) → List Char → List (List Char)
  | [], current => if pyStrip current = [] then [] else [pyStrip current]
  | p :: rest, current =>
    if current.length + (p.take 1000).length > 500 ∧ current ≠ [] then
      pyStrip current :: chunkLoop rest (tail50 current ++ p.take 1000 ++ nl2)
    else
      chunkLoop rest (current ++ p.take 1000 ++ nl2)

/-- `VectorStore._chunk_text(text)` with its default parameters: split into
paragraphs, accumulate into chunks of at most 500 characters with 50
characters of overlap, strip each chunk, drop empty chunks and truncate
any chunk to 1000 characters. -/
def chunkText (text : List Char) : List (List Char) :=
  ((chunkLoop (splitNl2 text) []).filter (fun c => !(pyStrip c).isEmpty)).map
    (List.take 1000)

/-! ### Data model of retrieval candidates and results -/

/-- The optional metadata keys the scoring code reads with `dict.get`. -/
structure Metadata where
  filename : Option (List Char)
  section_type : Option (List Char)
  year : Option Int
  chunk_index : Option Nat
  file_id : Option (List Char)
deriving DecidableEq, Repr

/-- A row of `VectorStore.search`'s `formatted_results`: the dict
`{"text": ..., "metadata": ..., "distance": ..., "id": ...}`. -/
structure StoreRow where
  text : List Char
  metadata : Metadata
  distance : ℚ
  id : List Char
deriving DecidableEq, Repr

/-- A candidate document dict as consumed by `HybridSearchEngine`.
`score` models the optional `'score'` key read by
`doc.get('score', 0.0)` in `_fuse_scores`. -/
structure CandidateDoc where
  text : List Char
  metadata : Metadata
  distance : ℚ
  score : Option ℚ
deriving DecidableEq, Repr

/-- The dict built for each hit in `VectorStore.search`: it carries the
keys `text`, `metadata`, `distance` and `id` and, crucially, no `score`
key. -/
def formatResult (row : StoreRow) : CandidateDoc :=
  { text := row.text, metadata := row.metadata, distance := row.distance,
    score := none }

/-- The `SearchResult` dataclass of `hybrid_search.py`. -/
structure SearchResult where
  text : List Char
  score : ℚ
  vector_score : ℚ
  keyword_score : ℚ
  metadata_score : ℚ
  chunk_index : Nat
  file_id : List Char
  metadata : Metadata
deriving DecidableEq, Repr

/-! ### Option-valued arithmetic for Python division -/

/-- Division returning `none` exactly when Python would raise
`ZeroDivisionError`. -/
def checkedDiv (a b : ℚ) : Option ℚ :=
  if b = 0 then none else some (a / b)

/-- Addition of optional values; `none` (a raised exception) propagates. -/
def optAdd : Option ℚ → Option ℚ → Option ℚ
  | some a, some b => some (a + b)
  | _, _ => none

/-- Sum of optional values; `none` propagates. -/
def sumOpt : List (Option ℚ) → Option ℚ
  | [] => some 0
  | o :: os => optAdd o (sumOpt os)

/-- Cons of optional values; `none` propagates. -/
def optCons : Option ℚ → Option (List ℚ) → Option (List ℚ)
  | some v, some vs => some (v :: vs)
  | _, _ => none

/-- Collects a list of optional results; `none` propagates, as the first
raised exception aborts the Python loop. -/
def mapOpt (f : α → Option ℚ) : List α → Option (List ℚ)
  | [] => some []
  | x :: xs => optCons (f x) (mapOpt f xs)

/-- Python `max` over a nonempty collection, head plus remaining values
(written with an explicit comparison so that it evaluates by reduction). -/
def maxQ (a : ℚ) : List ℚ → ℚ
  | [] => a
  | b :: l => maxQ (if a ≤ b then b else a) l

/-! ### BM25 keyword scoring (`HybridSearchEngine._bm25_search`) -/

/-- `len(doc['text'].split())`, the BM25 document length. -/
def docLen (d : CandidateDoc) : Nat :=
  countWords d.text

/-- `avgdl = sum(doc_lengths) / len(doc_lengths) if doc_lengths else 1`.
The division is guarded by the conditional, so it is total. -/
def avgdlQ (docs : List CandidateDoc) : ℚ :=
  if docs.isEmpty then 1
  else ((docs.map (fun d => (docLen d : ℚ))).sum) / (docs.length : ℚ)

/-- Document frequency of a term: the number of candidate texts containing
`term.lower()` as a substring. -/
def dfCount (docs : List CandidateDoc) (term : List Char) : Nat :=
  docs.countP (fun d => containsSub (pyLower term) (pyLower d.text))

/-- `IDF = log((N - df + 0.5) / (df + 0.5) + 1) if df > 0 else 0`.
The divisor `df + 0.5` is never zero, so plain division is faithful.
`lg` abstracts `math.log`. -/
def idfQ (lg : ℚ → ℚ) (N df : Nat) : ℚ :=
  if 0 < df then lg (((N : ℚ) - (df : ℚ) + 1/2) / ((df : ℚ) + 1/2) + 1) else 0

/-- Term frequency of a term in a document, `doc_text_lower.count(term_lower)`. -/
def tfCount (term : List Char) (d : CandidateDoc) : Nat :=
  countSubstr (pyLower term) (pyLower d.text)

/-- The BM25 contribution of one query term to one document's raw score.
When `tf = 0` the Python loop skips the term, so no division is evaluated
and the contribution is zero; otherwise the divisions
`doc_length / avgdl` and `numerator / denominator` are performed. -/
def contribFor (lg : ℚ → ℚ) (k1 b : ℚ) (docs : List CandidateDoc)
    (term : List Char) (d : CandidateDoc) : Option ℚ :=
  if tfCount term d = 0 then some 0
  else
    match checkedDiv (docLen d : ℚ) (avgdlQ docs) with
    | none => none
    | some r =>
      checkedDiv
        (idfQ lg docs.length (dfCount docs term) * (tfCount term d : ℚ) * (k1 + 1))
        ((tfCount term d : ℚ) + k1 * (1 - b + b * r))

/-- One document's raw (un-normalized) BM25 score: the sum of the per-term
contributions. -/
def bm25DocRaw (lg : ℚ → ℚ) (k1 b : ℚ) (docs : List CandidateDoc)
    (terms : List (List Char)) (d : CandidateDoc) : Option ℚ :=
  sumOpt (terms.map (fun t => contribFor lg k1 b docs t d))

/-- `max_score = max(bm25_scores.values()) if bm25_scores else 1`. -/
def bm25Max : List ℚ → ℚ
  | [] => 1
  | r :: rs => maxQ r rs

/-- Normalization step of `_bm25_search`: divide every score by the
maximum when the maximum is positive, otherwise leave the scores. -/
def bm25Normalize (raws : List ℚ) : List ℚ :=
  if 0 < bm25Max raws then raws.map (fun s => s / bm25Max raws) else raws

/-- `HybridSearchEngine._bm25_search(documents, query_terms)`: the list of
normalized per-document BM25 scores (the Python dict keyed `0..N-1`),
or `none` when the computation raises `ZeroDivisionError`. -/
def bm25 (lg : ℚ → ℚ) (k1 b : ℚ) (docs : List CandidateDoc)
    (terms : List (List Char)) : Option (List ℚ) :=
  match mapOpt (bm25DocRaw lg k1 b docs terms) docs with
  | none => none
  | some raws => some (bm25Normalize raws)

/-! ### Metadata boosting (`HybridSearchEngine._metadata_boost`) -/

/-- Filename component: `+0.5` the first time some query term occurs in the
lowered filename, then `break`. -/
def filenameBoost (md : Metadata) (terms : List (List Char)) : ℚ :=
  if terms.any (fun t => containsSub (pyLower t) (pyLower (md.filename.getD []))) then 1/2
  else 0

/-- Section-type component: `+0.2` when the lowered section type contains
one of the finance signal words. -/
def sectionBoost (md : Metadata) : ℚ :=
  if (["financial", "statement", "revenue", "profit"].map String.toList).any
      (fun k => containsSub k (pyLower (md.section_type.getD []))) then 1/5
  else 0

/-- Recency component: `(year - 2000) / 25.0 * 0.3` when the metadata has a
truthy integer `year` (Python `if year and isinstance(year, int)`, so a
year of `0` is skipped). -/
def yearBoost (md : Metadata) : ℚ :=
  match md.year with
  | none => 0
  | some y => if y = 0 then 0 else ((y : ℚ) - 2000) / 25 * (3/10)

/-- The metadata score of a single chunk, capped at `1.0` by
`min(score, 1.0)` (written with an explicit comparison so that it
evaluates by reduction; `metadataBoost_range` states it as a `min`). -/
def metadataBoostDoc (d : CandidateDoc) (terms : List (List Char)) : ℚ :=
  if filenameBoost d.metadata terms + sectionBoost d.metadata + yearBoost d.metadata ≤ 1
  then filenameBoost d.metadata terms + sectionBoost d.metadata + yearBoost d.metadata
  else 1

/-- `HybridSearchEngine._metadata_boost(documents, query_terms)`, as the
positional list of per-chunk scores. -/
def metadataBoost (docs : List CandidateDoc) (terms : List (List Char)) : List ℚ :=
  docs.map (fun d => metadataBoostDoc d terms)

/-! ### Score fusion (`HybridSearchEngine._fuse_scores`) -/

/-- Build one `SearchResult` from a candidate and its keyword and metadata
scores, exactly as the fusion loop does. `vector_score` is
`doc.get('score', 0.0)`; the final score uses the fixed fusion weights
0.60 / 0.30 / 0.10. -/
def mkResult (d : CandidateDoc) (k m : ℚ) : SearchResult :=
  let v := d.score.getD 0
  { text := d.text
    score := 6/10 * v + 3/10 * k + 1/10 * m
    vector_score := v
    keyword_score := k
    metadata_score := m
    chunk_index := d.metadata.chunk_index.getD 0
    file_id := d.metadata.file_id.getD []
    metadata := d.metadata }

/-- The fused results in candidate (vector-rank) order, before sorting:
`keyword_scores.get(idx, 0.0)` and `metadata_scores.get(idx, 0.0)` are
positional lookups with default 0. -/
def fuseAux (kw md : List ℚ) : Nat → List CandidateDoc → List SearchResult
  | _, [] => []
  | i, d :: rest => mkResult d (kw.getD i 0) (md.getD i 0) :: fuseAux kw md (i + 1) rest

/-- Stable descending insertion: the new element goes in front of the first
already-placed element whose score is not larger. -/
def insertDesc (x : SearchResult) : List SearchResult → List SearchResult
  | [] => [x]
  | h :: t => if h.score ≤ x.score then x :: h :: t else h :: insertDesc x t

/-- Stable sort by final score, descending. Python `list.sort` with
`key=lambda x: x.score, reverse=True` is a stable descending sort; any
stable sort computes the same list, and this insertion sort is one. -/
def sortDesc : List SearchResult → List SearchResult
  | [] => []
  | x :: l => insertDesc x (sortDesc l)

/-- `HybridSearchEngine._fuse_scores`: fuse the three score sources and
sort by final score descending (stably). -/
def fuseScores (docs : List CandidateDoc) (kw md : List ℚ) : List SearchResult :=
  sortDesc (fuseAux kw md 0 docs)

/-- `HybridSearchEngine.search` from the vector candidates on: early return
on an empty candidate list, BM25 scoring (which can raise), metadata
boosting, fusion, the identity re-ranking hook, and the `top_k`
truncation. `none` models a raised exception. -/
def engineSearch (lg : ℚ → ℚ) (vres : List CandidateDoc)
    (terms : List (List Char)) (topK : Nat) : Option (List SearchResult) :=
  if vres.isEmpty then some []
  else
    match bm25 lg (3/2) (3/4) vres terms with
    | none => none
    | some kw => some ((fuseScores vres kw (metadataBoost vres terms)).take topK)

/-! ### Context assembly (`_find_relevant_context_optimized` in chat.py) -/

/-- The chunk-combination loop: append whole texts while they fit in the
budget; at the first text that does not fit, append its prefix filling
the remaining space if more than 100 characters remain, and stop. -/
def assembleChunks (maxChars : Nat) : List (List Char) → Nat → List (List Char)
  | [], _ => []
  | t :: rest, total =>
    if total + t.length ≤ maxChars then t :: assembleChunks maxChars rest (total + t.length)
    else if 100 < maxChars - total then [t.take (maxChars - total)] else []

/-- The returned context string: the included fragments joined with the
fixed separator. -/
def contextString (maxChars : Nat) (texts : List (List Char)) : List Char :=
  joinSep nl2 (assembleChunks maxChars texts 0)

/-! ### Query processor (`query_processor.py`)

The regex patterns of `FinancialQueryProcessor` are embedded as direct
left-to-right scanners with Python `re` semantics: at each position the
alternatives are tried in order, `re.IGNORECASE` is honoured, `\b` is a
word/non-word boundary, and after a match the scan resumes at its end;
`re.findall` returns the text of group 1 when a pattern has a group and
the whole match otherwise. -/

/-- Word-character test of an optional character; the edge of the string
counts as a non-word character for `\b`. -/
def optWord : Option Char → Bool
  | none => false
  | some c => isWordChar c

/-- The `\b` boundary between two adjacent (optional) characters. -/
def bdry (a b : Option Char) : Bool :=
  optWord a != optWord b

/-- Case-insensitive literal match of a pattern against a prefix of the
input; returns the actually matched text and the rest. -/
def matchCI : List Char → List Char → Option (List Char × List Char)
  | [], s => some ([], s)
  | _ :: _, [] => none
  | p :: ps, c :: cs =>
    if c.toLower = p.toLower then
      match matchCI ps cs with
      | none => none
      | some (m, r) => some (c :: m, r)
    else none

/-- Keep a candidate match only if the `\b` before its first character
holds. -/
def okStart (prev : Option Char) :
    Option (List Char × List Char) → Option (List Char × List Char)
  | none => none
  | some (g, r) => if bdry prev g.head? then some (g, r) else none

/-- Keep a candidate match only if the `\b` after its last character
holds. -/
def okEnd : Option (List Char × List Char) → Option (List Char × List Char)
  | none => none
  | some (g, r) => if bdry g.getLast? r.head? then some (g, r) else none

/-- Year pattern, first alternative `20\d{2}`. -/
def yearAlt1 : List Char → Option (List Char × List Char)
  | '2' :: '0' :: d1 :: d2 :: rest =>
    if d1.isDigit && d2.isDigit then some (['2', '0', d1, d2], rest) else none
  | _ => none

/-- Year pattern, second alternative `FY\d{2}` (case-insensitive). -/
def yearAlt2 : List Char → Option (List Char × List Char)
  | f :: y :: d1 :: d2 :: rest =>
    if (f = 'F' || f = 'f') && (y = 'Y' || y = 'y') && d1.isDigit && d2.isDigit then
      some ([f, y, d1, d2], rest)
    else none
  | _ => none

/-- Year pattern, third alternative `Q[1-4]\s*20\d{2}` (case-insensitive
`Q`). The greedy `\s*` needs no backtracking because a space can never
start `20\d{2}`. -/
def yearAlt3 : List Char → Option (List Char × List Char)
  | q :: q1 :: rest =>
    if (q = 'Q' || q = 'q') && ('1' ≤ q1 && q1 ≤ '4') then
      match rest.dropWhile isSpc with
      | '2' :: '0' :: d1 :: d2 :: rest2 =>
        if d1.isDigit && d2.isDigit then
          some (q :: q1 :: (rest.takeWhile isSpc ++ ['2', '0', d1, d2]), rest2)
        else none
      | _ => none
    else none
  | _ => none

/-- Match of `\b(20\d{2}|FY\d{2}|Q[1-4]\s*20\d{2})\b` at one position:
alternatives in pattern order, each with its boundary checks. -/
def yearMatchAt (prev : Option Char) (s : List Char) :
    Option (List Char × List Char) :=
  match okStart prev (okEnd (yearAlt1 s)) with
  | some gr => some gr
  | none =>
    match okStart prev (okEnd (yearAlt2 s)) with
    | some gr => some gr
    | none => okStart prev (okEnd (yearAlt3 s))

/-- The currency code alternatives of the currency pattern, in order. -/
def curAlts : List (List Char) :=
  (["USD", "EUR", "GBP", "JPY", "CNY", "INR", "IDR", "Rp"]).map String.toList

/-- First code alternative that matches at this position with both
boundaries. -/
def firstCurCode (prev : Option Char) (s : List Char) :
    List (List Char) → Option (List Char × List Char)
  | [] => none
  | p :: ps =>
    match okStart prev (okEnd (matchCI p s)) with
    | some gr => some gr
    | none => firstCurCode prev s ps

/-- Match of `\b(USD|EUR|GBP|JPY|CNY|INR|IDR|Rp|[$€£¥])\b` at one
position (case-insensitive). -/
def currencyMatchAt (prev : Option Char) (s : List Char) :
    Option (List Char × List Char) :=
  match firstCurCode prev s curAlts with
  | some gr => some gr
  | none =>
    match s with
    | [] => none
    | c :: rest =>
      if c = '$' || c = '€' || c = '£' || c = '¥' then
        okStart prev (okEnd (some ([c], rest)))
      else none

/-- The optional literal dot `\.?`: the consumed text and the rest. -/
def dotSkip : List Char → List Char × List Char
  | '.' :: r => (['.'], r)
  | r => ([], r)

/-- What remains of `rest` (the input after the leading digit) after the
greedy `\d+\.?\d*\s*` of the percentage pattern. -/
def percentTail (rest : List Char) : List Char :=
  (((dotSkip (rest.dropWhile Char.isDigit)).2.dropWhile Char.isDigit).dropWhile isSpc)

/-- The full matched text of the percentage pattern starting at digit `c`,
ending with the `%` sign. -/
def percentGroup (c : Char) (rest : List Char) : List Char :=
  c :: (rest.takeWhile Char.isDigit
    ++ (dotSkip (rest.dropWhile Char.isDigit)).1
    ++ (dotSkip (rest.dropWhile Char.isDigit)).2.takeWhile Char.isDigit
    ++ ((dotSkip (rest.dropWhile Char.isDigit)).2.dropWhile Char.isDigit).takeWhile isSpc
    ++ ['%'])

/-- Match of `\b\d+\.?\d*\s*%` at one position (no group, so the whole
match is reported). The greedy quantifiers need no backtracking since the
relevant character classes are disjoint. -/
def percentMatchAt (prev : Option Char) (s : List Char) :
    Option (List Char × List Char) :=
  match s with
  | [] => none
  | c :: rest =>
    if c.isDigit && !optWord prev then
      match percentTail rest with
      | '%' :: r5 => some (percentGroup c rest, r5)
      | _ => none
    else none

/-- The unit alternatives of the amount pattern, in pattern order (note
`m` precedes `mn`, so the trailing `\b` decides between them). -/
def amountUnits : List (List Char) :=
  (["million", "billion", "trillion", "k", "m", "b", "mn", "bn"]).map String.toList

/-- First unit alternative matching at this position whose trailing `\b`
holds. -/
def firstUnit (s : List Char) : List (List Char) → Option (List Char × List Char)
  | [] => none
  | p :: ps =>
    match okEnd (matchCI p s) with
    | some gr => some gr
    | none => firstUnit s ps

/-- What remains of `rest` (the input after the leading digit) after the
greedy `\d+[\d,]*\.?\d*\s*` of the amount pattern. -/
def amountTail (rest : List Char) : List Char :=
  (((dotSkip ((rest.dropWhile Char.isDigit).dropWhile
      (fun x => x.isDigit || x = ','))).2.dropWhile Char.isDigit).dropWhile isSpc)

/-- Match of `\b\d+[\d,]*\.?\d*\s*(million|billion|trillion|k|m|b|mn|bn)\b`
at one position; the reported group is the unit, as `re.findall` returns
group 1. -/
def amountMatchAt (prev : Option Char) (s : List Char) :
    Option (List Char × List Char) :=
  match s with
  | [] => none
  | c :: rest =>
    if c.isDigit && !optWord prev then firstUnit (amountTail rest) amountUnits
    else none

/-- `re.findall` scanning loop: try the position matcher at each position
from the left; on a match, emit its group and resume after the match,
otherwise advance one character. The `Nat` argument is recursion fuel;
every step of a consuming matcher advances at least one character, so
fuel equal to the input length is enough and the zero-fuel case is
unreachable (`scanWithF_fuel`). -/
def scanWithF (f : Option Char → List Char → Option (List Char × List Char)) :
    Nat → Option Char → List Char → List (List Char)
  | 0, _, _ => []
  | _ + 1, _, [] => []
  | fuel + 1, prev, c :: rest =>
    match f prev (c :: rest) with
    | some (g, r) => g :: scanWithF f fuel g.getLast? r
    | none => scanWithF f fuel (some c) rest

theorem okStart_some {prev : Option Char} {o : Option (List Char × List Char)}
    {g r : List Char} (h : okStart prev o = some (g, r)) : o = some (g, r) := by
  unfold okStart at h
  split at h
  · simp at h
  · split at h
    · exact h
    · simp at h

theorem okEnd_some {o : Option (List Char × List Char)}
    {g r : List Char} (h : okEnd o = some (g, r)) : o = some (g, r) := by
  unfold okEnd at h
  split at h
  · simp at h
  · split at h
    · exact h
    · simp at h

/-- The `dropWhile` of a list is never longer than the list. -/
theorem lenDropWhile (p : Char → Bool) (l : List Char) :
    (l.dropWhile p).length ≤ l.length :=
  (List.dropWhile_sublist p).length_le

/-- Skipping the optional dot never lengthens the rest. -/
theorem lenDotSkip (l : List Char) : (dotSkip l).2.length ≤ l.length := by
  unfold dotSkip
  split
  · simp
  · simp

theorem matchCI_length {p : List Char} :
    ∀ {s g r : List Char}, matchCI p s = some (g, r) →
      s.length = r.length + p.length := by
  induction p with
  | nil =>
    intro s g r h
    unfold matchCI at h
    simp_all
  | cons c cs ih =>
    intro s g r h
    unfold matchCI at h
    match s with
    | [] => simp_all
    | a :: as =>
      simp only at h
      split at h
      · split at h
        · simp_all
        · rename_i m r' heq
          simp only [Option.some.injEq, Prod.mk.injEq] at h
          obtain ⟨hg, hr⟩ := h
          subst hr
          have := ih heq
          simp [List.length_cons, this]
          omega
      · simp_all

theorem yearAlt1_length {s g r : List Char} (h : yearAlt1 s = some (g, r)) :
    r.length < s.length := by
  unfold yearAlt1 at h
  split at h
  · split at h
    · simp only [Option.some.injEq, Prod.mk.injEq] at h
      obtain ⟨_, hr⟩ := h
      subst hr
      simp only [List.length_cons]
      omega
    · simp_all
  · simp_all

theorem yearAlt2_length {s g r : List Char} (h : yearAlt2 s = some (g, r)) :
    r.length < s.length := by
  unfold yearAlt2 at h
  split at h
  · split at h
    · simp only [Option.some.injEq, Prod.mk.injEq] at h
      obtain ⟨_, hr⟩ := h
      subst hr
      simp only [List.length_cons]
      omega
    · simp_all
  · simp_all

theorem yearAlt3_length {s g r : List Char} (h : yearAlt3 s = some (g, r)) :
    r.length < s.length := by
  unfold yearAlt3 at h
  split at h
  · rename_i q q1 rest
    split at h
    · split at h
      · rename_i heq
        split at h
        · simp only [Option.some.injEq, Prod.mk.injEq] at h
          obtain ⟨_, hr⟩ := h
          subst hr
          have h1 : (rest.dropWhile isSpc).length ≤ rest.length :=
            lenDropWhile isSpc rest
          rw [heq] at h1
          simp only [List.length_cons] at h1 ⊢
          omega
        · simp_all
      · simp_all
    · simp_all
  · simp_all

theorem yearMatchAt_length :
    ∀ (p : Option Char) (s g r : List Char),
      yearMatchAt p s = some (g, r) → r.length < s.length := by
  intro p s g r h
  unfold yearMatchAt at h
  split at h
  · rename_i gr heq
    obtain ⟨g', r'⟩ := gr
    cases h
    exact yearAlt1_length (okEnd_some (okStart_some heq))
  · split at h
    · rename_i gr heq
      obtain ⟨g', r'⟩ := gr
      cases h
      exact yearAlt2_length (okEnd_some (okStart_some heq))
    · exact yearAlt3_length (okEnd_some (okStart_some h))

theorem firstCurCode_length {prev : Option Char} {s : List Char} :
    ∀ {pats : List (List Char)} {g r : List Char},
      (∀ p ∈ pats, p ≠ []) → firstCurCode prev s pats = some (g, r) →
      r.length < s.length := by
  intro pats
  induction pats with
  | nil => intro g r _ h; simp [firstCurCode] at h
  | cons p ps ih =>
    intro g r hne h
    unfold firstCurCode at h
    split at h
    · rename_i gr heq
      obtain ⟨g', r'⟩ := gr
      cases h
      have hm := okEnd_some (okStart_some heq)
      have hl := matchCI_length hm
      have hp : p ≠ [] := hne p (by simp)
      have : 0 < p.length := List.length_pos.mpr hp
      omega
    · exact ih (fun q hq => hne q (by simp [hq])) h

theorem currencyMatchAt_length :
    ∀ (p : Option Char) (s g r : List Char),
      currencyMatchAt p s = some (g, r) → r.length < s.length := by
  intro p s g r h
  unfold currencyMatchAt at h
  split at h
  · rename_i gr heq
    obtain ⟨g', r'⟩ := gr
    cases h
    exact firstCurCode_length (by decide) heq
  · split at h
    · simp_all
    · rename_i c rest
      split at h
      · have hm := okEnd_some (okStart_some h)
        simp only [Option.some.injEq, Prod.mk.injEq] at hm
        obtain ⟨_, hr⟩ := hm
        subst hr
        simp only [List.length_cons]
        omega
      · simp_all

/-- The remainder after the percentage pattern body is at most the input. -/
theorem lenPercentTail (rest : List Char) : (percentTail rest).length ≤ rest.length := by
  unfold percentTail
  have h1 := lenDropWhile Char.isDigit rest
  have h2 := lenDotSkip (rest.dropWhile Char.isDigit)
  have h3 := lenDropWhile Char.isDigit (dotSkip (rest.dropWhile Char.isDigit)).2
  have h4 := lenDropWhile isSpc
    ((dotSkip (rest.dropWhile Char.isDigit)).2.dropWhile Char.isDigit)
  omega

theorem percentMatchAt_length :
    ∀ (p : Option Char) (s g r : List Char),
      percentMatchAt p s = some (g, r) → r.length < s.length := by
  intro p s g r h
  unfold percentMatchAt at h
  split at h
  · simp_all
  · rename_i c rest
    split at h
    · split at h
      · rename_i r5 heq
        simp only [Option.some.injEq, Prod.mk.injEq] at h
        obtain ⟨_, hr⟩ := h
        subst hr
        have h4 := lenPercentTail rest
        rw [heq] at h4
        simp only [List.length_cons] at h4 ⊢
        omega
      · simp_all
    · simp_all

theorem firstUnit_length {s : List Char} :
    ∀ {pats : List (List Char)} {g r : List Char},
      (∀ p ∈ pats, p ≠ []) → firstUnit s pats = some (g, r) →
      r.length < s.length := by
  intro pats
  induction pats with
  | nil => intro g r _ h; simp [firstUnit] at h
  | cons p ps ih =>
    intro g r hne h
    unfold firstUnit at h
    split at h
    · rename_i gr heq
      obtain ⟨g', r'⟩ := gr
      cases h
      have hl := matchCI_length (okEnd_some heq)
      have hp : p ≠ [] := hne p (by simp)
      have : 0 < p.length := List.length_pos.mpr hp
      omega
    · exact ih (fun q hq => hne q (by simp [hq])) h

/-- The remainder after the amount pattern body is at most the input. -/
theorem lenAmountTail (rest : List Char) : (amountTail rest).length ≤ rest.length := by
  unfold amountTail
  have h1 := lenDropWhile Char.isDigit rest
  have h2 := lenDropWhile (fun x => x.isDigit || x = ',') (rest.dropWhile Char.isDigit)
  have h3 := lenDotSkip ((rest.dropWhile Char.isDigit).dropWhile
    (fun x => x.isDigit || x = ','))
  have h4 := lenDropWhile Char.isDigit
    (dotSkip ((rest.dropWhile Char.isDigit).dropWhile (fun x => x.isDigit || x = ','))).2
  have h5 := lenDropWhile isSpc
    ((dotSkip ((rest.dropWhile Char.isDigit).dropWhile
      (fun x => x.isDigit || x = ','))).2.dropWhile Char.isDigit)
  omega

theorem amountMatchAt_length :
    ∀ (p : Option Char) (s g r : List Char),
      amountMatchAt p s = some (g, r) → r.length < s.length := by
  intro p s g r h
  unfold amountMatchAt at h
  split at h
  · simp_all
  · rename_i c rest
    split at h
    · have h6 := firstUnit_length (by decide) h
      have h7 := lenAmountTail rest
      simp only [List.length_cons]
      omega
    · simp_all

/-- The fuel of `scanWithF` is irrelevant for a consuming matcher as soon
as it covers the length of the input: the scan never runs out. -/
theorem scanWithF_fuel (f : Option Char → List Char → Option (List Char × List Char))
    (hf : ∀ p s g r, f p s = some (g, r) → r.length < s.length) :
    ∀ fuel prev s, s.length ≤ fuel →
      scanWithF f fuel prev s = scanWithF f s.length prev s := by
  intro fuel
  induction fuel using Nat.strong_induction_on with
  | _ fuel ih =>
    intro prev s hle
    match fuel, s with
    | 0, s =>
      have : s.length = 0 := Nat.le_zero.mp hle
      rw [this]
    | fuel + 1, [] => rfl
    | fuel + 1, c :: rest =>
      simp only [List.length_cons] at hle
      show scanWithF f (fuel + 1) prev (c :: rest) =
        scanWithF f (rest.length + 1) prev (c :: rest)
      unfold scanWithF
      split
      · rename_i g r heq
        have hr := hf _ _ _ _ heq
        simp only [List.length_cons] at hr
        rw [ih fuel (by omega) _ _ (by omega),
          ih rest.length (by omega) _ _ (by omega)]
      · rw [ih fuel (by omega) _ _ (by omega),
          ih rest.length (by omega) _ _ (by omega)]

/-- `_extract_entities(query)`: run the four entity patterns over the raw
query in dict order (year, currency, percentage, amount) and concatenate
their `re.findall` results. -/
def extractEntities (query : List Char) : List (List Char) :=
  scanWithF yearMatchAt query.length none query
    ++ scanWithF currencyMatchAt query.length none query
    ++ scanWithF percentMatchAt query.length none query
    ++ scanWithF amountMatchAt query.length none query

/-- Whether `re.search(r'\b' + re.escape(term) + r'\b', s)` succeeds with
the match starting at this position. -/
def wbAt (term : List Char) (prev : Option Char) (s : List Char) : Bool :=
  term.isPrefixOf s && bdry prev term.head? && bdry term.getLast? ((s.drop term.length).head?)

/-- Scan of `re.search` for a whole-word occurrence of `term`. -/
def wbSearchAux (term : List Char) : Option Char → List Char → Bool
  | prev, [] => wbAt term prev []
  | prev, c :: rest => wbAt term prev (c :: rest) || wbSearchAux term (some c) rest

/-- `re.search(r'\bterm\b', s)` as a Boolean: some position carries a
whole-word occurrence. -/
def wbSearch (term s : List Char) : Bool :=
  wbSearchAux term none s

/-- `COMPARISON_VERBS`. -/
def comparisonVerbs : List (List Char) :=
  (["compare", "versus", "vs", "between", "difference", "contrast", "rank", "which"]).map
    String.toList

/-- `EXTRACTION_VERBS`. -/
def extractionVerbs : List (List Char) :=
  (["what", "how much", "show", "find", "get", "extract", "list"]).map String.toList

/-- `SUMMARY_VERBS`. -/
def summaryVerbs : List (List Char) :=
  (["summarize", "overview", "summary", "explain", "describe", "tell me about"]).map
    String.toList

/-- `CALCULATION_VERBS`. -/
def calculationVerbs : List (List Char) :=
  (["calculate", "compute", "determine", "measure"]).map String.toList

/-- `FINANCIAL_METRICS`: canonical metric names with their synonym lists,
in source order. -/
def financialMetrics : List (List Char × List (List Char)) :=
  ([("revenue", ["sales", "income", "turnover", "receipts", "proceeds"]),
    ("profit", ["earnings", "net income", "bottom line", "margin", "gains"]),
    ("loss", ["deficit", "shortfall", "negative earnings", "red ink"]),
    ("assets", ["holdings", "resources", "property", "investments"]),
    ("liabilities", ["debts", "obligations", "payables", "borrowings"]),
    ("equity", ["capital", "shareholder equity", "net worth", "ownership"]),
    ("cash flow", ["cash generation", "liquidity", "operating cash"]),
    ("ebitda", ["operating profit", "operating income", "operational earnings"]),
    ("expenses", ["costs", "expenditures", "outflows", "spending"]),
    ("dividend", ["payout", "distribution", "shareholder return"]),
    ("debt", ["borrowing", "loan", "bond", "financing", "leverage"]),
    ("growth", ["increase", "expansion", "rise", "improvement"]),
    ("valuation", ["value", "worth", "market cap", "enterprise value"]),
    ("margin", ["profitability", "markup", "spread", "profit margin"]),
    ("ratio", ["metric", "indicator", "measurement", "coefficient"])] :
      List (String × List String)).map
    (fun p => (p.1.toList, p.2.map String.toList))

/-- Python dict assignment `d[k] = v`: a repeated key keeps its original
position but takes the new value. -/
def dictInsert (k v : List Char) (d : List (List Char × List Char)) :
    List (List Char × List Char) :=
  if d.any (fun kv => kv.1 == k) then d.map (fun kv => if kv.1 == k then (k, v) else kv)
  else d ++ [(k, v)]

/-- The `term_to_canonical` reverse-lookup dict built in `__init__`: every
canonical term maps to itself and every synonym maps to its canonical
term; the key `margin` is first inserted as a synonym of `profit` and
later overwritten by the canonical metric `margin`. All keys are already
lowercase in the source table. -/
def termToCanonical : List (List Char × List Char) :=
  financialMetrics.foldl
    (fun d kc => kc.2.foldl (fun d2 syn => dictInsert syn kc.1 d2) (dictInsert kc.1 kc.1 d))
    []

/-- `_detect_intent(query_lower)`: substring membership tests against the
verb lists, in source order. -/
def detectIntent (qLower : List Char) : List Char :=
  if comparisonVerbs.any (fun v => containsSub v qLower) then "compare".toList
  else if calculationVerbs.any (fun v => containsSub v qLower) then "calculate".toList
  else if summaryVerbs.any (fun v => containsSub v qLower) then "summarize".toList
  else if extractionVerbs.any (fun v => containsSub v qLower) then "extract".toList
  else "question".toList

/-- `_extract_action_verbs(query_lower)`: all verbs, in list order, that
occur as whole words in the lowered query. -/
def extractActionVerbs (qLower : List Char) : List (List Char) :=
  (comparisonVerbs ++ extractionVerbs ++ summaryVerbs ++ calculationVerbs).filter
    (fun v => wbSearch v qLower)

/-- `_extract_financial_keywords(query_lower)`: walk `term_to_canonical`
in insertion order; on a whole-word match append the canonical form if
not already present. -/
def extractKeywords (qLower : List Char) : List (List Char) :=
  termToCanonical.foldl
    (fun acc tc => if wbSearch tc.1 qLower && !acc.contains tc.2 then acc ++ [tc.2] else acc)
    []

/-- `_expand_query(keywords)`: each keyword followed by its synonyms, then
deduplicated. Python materializes `list(set(...))`, whose order is
unspecified; the claims checked here do not depend on that order, and it
is modelled as first-occurrence deduplication. -/
def expandQuery (keywords : List (List Char)) : List (List Char) :=
  (keywords.foldl
    (fun acc k =>
      acc ++ [k] ++ (match financialMetrics.lookup k with
                     | some syns => syns
                     | none => []))
    []).dedup

/-- The cross-document indicator phrases. -/
def crossDocIndicators : List (List Char) :=
  (["compare", "versus", "vs", "between", "across documents", "all documents",
    "which company", "which document", "highest", "lowest", "best", "worst",
    "rank"]).map String.toList

/-- `_is_cross_document_query(query_lower, action_verbs)` (the verb list
parameter is unused in the source). -/
def isCrossDocQ (qLower : List Char) : Bool :=
  crossDocIndicators.any (fun v => containsSub v qLower)

/-- The `QueryAnalysis` dataclass. -/
structure QueryAnalysis where
  original_query : List Char
  intent : List Char
  entities : List (List Char)
  keywords : List (List Char)
  expanded_terms : List (List Char)
  action_verbs : List (List Char)
  is_cross_document : Bool
deriving DecidableEq, Repr

/-- `FinancialQueryProcessor.analyze(query)`. -/
def analyze (query : List Char) : QueryAnalysis :=
  let ql := pyLower query
  let kws := extractKeywords ql
  { original_query := query
    intent := detectIntent ql
    entities := extractEntities query
    keywords := kws
    expanded_terms := expandQuery kws
    action_verbs := extractActionVerbs ql
    is_cross_document := isCrossDocQ ql }

/-! ### Two-stage cross-document flow (`chat_with_all_documents`) -/

/-- What the environment knows about one requested document id: whether an
uploaded file matching `{file_id}.*` exists, whether its text is in the
in-memory cache, and which chunk texts the vector store holds for it. -/
structure DocEnv where
  fileFound : Bool
  cachedText : Option (List Char)
  chunkTexts : List (List Char)

/-- The per-document loading steps of stage 1: skip when no uploaded file
matches; use the cached text; otherwise reconstruct the text from the
stored chunks, skipping when there are none. (Chunk reordering by
`chunk_index` is irrelevant to which documents load, so the stored chunk
list is taken as already ordered.) -/
def loadDoc (e : DocEnv) : Option (List Char) :=
  if !e.fileFound then none
  else
    match e.cachedText with
    | some t => some t
    | none => if e.chunkTexts.isEmpty then none else some (joinSep nl2 e.chunkTexts)

/-- A document id can be loaded: file present and either cached text or at
least one stored chunk. -/
def loadableDoc (e : DocEnv) : Bool :=
  e.fileFound && (e.cachedText.isSome || !e.chunkTexts.isEmpty)

/-- Stage 1 of `chat_with_all_documents`: per requested id, skip
unloadable documents with `continue`, and collect
`{"file_id": ..., "extracted_info": ...}` for the rest. The context
retrieval and LLM extraction step is abstracted as the oracle
`extract : file id → document text → extracted info`. -/
def stage1 (env : List Char → DocEnv)
    (extract : List Char → List Char → List Char) :
    List (List Char) → List (List Char × List Char)
  | [] => []
  | fid :: rest =>
    match loadDoc (env fid) with
    | none => stage1 env extract rest
    | some text => (fid, extract fid text) :: stage1 env extract rest

/-- The success payload of `chat_with_all_documents`. -/
structure ChatAllResponse where
  answer : List Char
  documents_analyzed : Nat
  file_ids : List (List Char)

/-- `chat_with_all_documents(request)`: reject an empty selection, run
stage 1, fail with the no-valid-documents error when nothing was
extracted, otherwise synthesize (oracle `synth`) and report
`documents_analyzed = len(extracted_data)`. -/
def chatAll (env : List Char → DocEnv)
    (extract : List Char → List Char → List Char)
    (synth : List (List Char × List Char) → List Char)
    (ids : List (List Char)) : Except (List Char) ChatAllResponse :=
  if ids.isEmpty then Except.error "No documents selected".toList
  else
    let ex := stage1 env extract ids
    if ex.isEmpty then Except.error "No valid documents found".toList
    else Except.ok { answer := synth ex, documents_analyzed := ex.length, file_ids := ids }

/-! ## Claim C7: metadata booster range and composition -/

/-- A chunk whose filename matches a query term and whose section type is
"financial statement", with no year metadata. -/
def exampleFsDoc : CandidateDoc :=
  { text := []
    metadata :=
      { filename := some "report.pdf".toList
        section_type := some "financial statement".toList
        year := none, chunk_index := none, file_id := none }
    distance := 0, score := none }

/-- A chunk with a pre-2000 year and no other metadata. -/
def negYearDoc : CandidateDoc :=
  { text := []
    metadata :=
      { filename := none, section_type := none, year := some 1990,
        chunk_index := none, file_id := none }
    distance := 0, score := none }

theorem filenameBoost_nonneg (md : Metadata) (terms : List (List Char)) :
    0 ≤ filenameBoost md terms := by
  unfold filenameBoost
  split <;> norm_num

theorem sectionBoost_nonneg (md : Metadata) : 0 ≤ sectionBoost md := by
  unfold sectionBoost
  split <;> norm_num

theorem boostSum_example :
    filenameBoost exampleFsDoc.metadata ["report".toList] +
      sectionBoost exampleFsDoc.metadata + yearBoost exampleFsDoc.metadata = 7/10 := by
  have h1 : filenameBoost exampleFsDoc.metadata ["report".toList] = 1/2 := rfl
  have h2 : sectionBoost exampleFsDoc.metadata = 1/5 := rfl
  have h3 : yearBoost exampleFsDoc.metadata = 0 := rfl
  rw [h1, h2, h3]
  norm_num

/-- C7 (counterexample): with `year = 1990` the metadata score is
negative, so it is not in [0,1]. -/
theorem metadataBoost_neg_example : metadataBoostDoc negYearDoc [] < 0 := by decide

/-- C7 (amended): the metadata score is the capped sum
`min(filename + section + recency, 1)`; it never exceeds 1, and it lies
in [0,1] provided any year present is at least 2000 (a pre-2000 year
makes the recency term, hence possibly the score, negative). A chunk
with a filename match and section type "financial statement" and no
year field scores exactly 0.7. -/
theorem metadataBoost_range (d : CandidateDoc) (terms : List (List Char)) :
    metadataBoostDoc d terms =
      min (filenameBoost d.metadata terms + sectionBoost d.metadata +
        yearBoost d.metadata) 1 ∧
    metadataBoostDoc d terms ≤ 1 ∧
    ((∀ y : ℤ, d.metadata.year = some y → 2000 ≤ y) →
      0 ≤ metadataBoostDoc d terms) ∧
    metadataBoostDoc exampleFsDoc ["report".toList] = 7/10 := by
  refine ⟨by unfold metadataBoostDoc; rw [min_def], ?_, ?_, by
    unfold metadataBoostDoc
    rw [boostSum_example]
    norm_num⟩
  · unfold metadataBoostDoc
    split
    · assumption
    · exact le_refl 1
  · intro hy
    unfold metadataBoostDoc
    have hf := filenameBoost_nonneg d.metadata terms
    have hs := sectionBoost_nonneg d.metadata
    have hyb : 0 ≤ yearBoost d.metadata := by
      unfold yearBoost
      split
      · norm_num
      · rename_i y heq
        split
        · norm_num
        · have h2000 := hy y heq
          have : (2000 : ℚ) ≤ (y : ℚ) := by exact_mod_cast h2000
          nlinarith
    split
    · linarith
    · norm_num

/-- C7 (witness): the amended range theorem applied to the concrete
financial-statement chunk, whose only year hypothesis is vacuous. -/
theorem metadataBoost_range_witness :
    metadataBoostDoc exampleFsDoc ["report".toList] ≤ 1 ∧
    0 ≤ metadataBoostDoc exampleFsDoc ["report".toList] ∧
    metadataBoostDoc exampleFsDoc ["report".toList] = 7/10 :=
  ⟨(metadataBoost_range exampleFsDoc ["report".toList]).2.1,
   (metadataBoost_range exampleFsDoc ["report".toList]).2.2.1
     (fun y h => by simp [exampleFsDoc] at h),
   (metadataBoost_range exampleFsDoc ["report".toList]).2.2.2⟩

/-! ## Claim C9: analysis of the comparison query -/

set_option maxRecDepth 40000 in
/-- C9: `analyze("Compare revenue between 2022 and 2023")` has intent
`compare`, entities containing `2022` and `2023`, keywords containing
`revenue`, and the cross-document flag set. -/
theorem analyze_compare_query :
    (analyze "Compare revenue between 2022 and 2023".toList).intent = "compare".toList ∧
    "2022".toList ∈ (analyze "Compare revenue between 2022 and 2023".toList).entities ∧
    "2023".toList ∈ (analyze "Compare revenue between 2022 and 2023".toList).entities ∧
    "revenue".toList ∈ (analyze "Compare revenue between 2022 and 2023".toList).keywords ∧
    (analyze "Compare revenue between 2022 and 2023".toList).is_cross_document = true := by
  decide

/-! ## Claim C10: intent without action verbs -/

/-- C10: a query exists (here "navsari", whose substring `vs` triggers the
comparison intent without being a whole word) for which the detected
intent is non-default while the extracted action-verb list is empty. -/
theorem intent_without_action_verbs :
    ∃ q : List Char, (analyze q).intent ≠ "question".toList ∧
      (analyze q).intent = "compare".toList ∧ (analyze q).action_verbs = [] :=
  ⟨"navsari".toList, by decide, by decide, by decide⟩

/-! ## Claim C6: two-stage cross-document flow -/

theorem loadDoc_isSome (e : DocEnv) : (loadDoc e).isSome = loadableDoc e := by
  unfold loadDoc loadableDoc
  cases hf : e.fileFound <;> cases hc : e.cachedText <;>
    cases he : e.chunkTexts.isEmpty <;> simp_all

theorem stage1_cons_none {env : List Char → DocEnv}
    {extract : List Char → List Char → List Char} {fid : List Char}
    {rest : List (List Char)} (h : loadDoc (env fid) = none) :
    stage1 env extract (fid :: rest) = stage1 env extract rest := by
  simp only [stage1, h]

theorem stage1_cons_some {env : List Char → DocEnv}
    {extract : List Char → List Char → List Char} {fid t : List Char}
    {rest : List (List Char)} (h : loadDoc (env fid) = some t) :
    stage1 env extract (fid :: rest) =
      (fid, extract fid t) :: stage1 env extract rest := by
  simp only [stage1, h]

theorem stage1_length (env : List Char → DocEnv)
    (extract : List Char → List Char → List Char) (ids : List (List Char)) :
    (stage1 env extract ids).length = ids.countP (fun i => loadableDoc (env i)) := by
  induction ids with
  | nil => rfl
  | cons fid rest ih =>
    have hl := loadDoc_isSome (env fid)
    match hld : loadDoc (env fid) with
    | none =>
      rw [hld] at hl
      simp only [Option.isSome_none] at hl
      rw [stage1_cons_none hld, List.countP_cons, ← hl]
      simpa using ih
    | some t =>
      rw [hld] at hl
      simp only [Option.isSome_some] at hl
      rw [stage1_cons_some hld, List.countP_cons, ← hl]
      simp [ih]

theorem stage1_skips_unloadable (env : List Char → DocEnv)
    (extract : List Char → List Char → List Char) (ids : List (List Char)) :
    stage1 env extract ids =
      stage1 env extract (ids.filter (fun i => loadableDoc (env i))) := by
  induction ids with
  | nil => rfl
  | cons fid rest ih =>
    have hl := loadDoc_isSome (env fid)
    match hld : loadDoc (env fid) with
    | none =>
      rw [hld] at hl
      simp only [Option.isSome_none] at hl
      rw [List.filter_cons, if_neg (by rw [← hl]; simp), stage1_cons_none hld]
      exact ih
    | some t =>
      rw [hld] at hl
      simp only [Option.isSome_some] at hl
      rw [List.filter_cons, if_pos (by rw [← hl]), stage1_cons_some hld,
        stage1_cons_some hld, ih]

/-- C6: in the two-stage flow with a nonempty selection, unloadable
documents are skipped without aborting (stage 1 equals stage 1 of the
loadable sub-list); the request fails with the no-valid-documents error
iff no requested document is loadable; and a successful response reports
`documents_analyzed` equal to the number of loadable documents, i.e. the
number of extracted facts. -/
theorem chatAll_skip_and_count (env : List Char → DocEnv)
    (extract : List Char → List Char → List Char)
    (synth : List (List Char × List Char) → List Char)
    (ids : List (List Char)) (hne : ids ≠ []) :
    (chatAll env extract synth ids = Except.error "No valid documents found".toList ↔
      ids.countP (fun i => loadableDoc (env i)) = 0) ∧
    (∀ resp, chatAll env extract synth ids = Except.ok resp →
      resp.documents_analyzed = ids.countP (fun i => loadableDoc (env i))) ∧
    stage1 env extract ids =
      stage1 env extract (ids.filter (fun i => loadableDoc (env i))) := by
  refine ⟨?_, ?_, stage1_skips_unloadable env extract ids⟩
  · unfold chatAll
    rw [if_neg (by simpa using hne)]
    by_cases hs : (stage1 env extract ids).isEmpty
    · rw [if_pos hs]
      simp only [List.isEmpty_iff] at hs
      have := stage1_length env extract ids
      rw [hs] at this
      simp [← this]
    · rw [if_neg hs]
      simp only [List.isEmpty_iff] at hs
      have := stage1_length env extract ids
      constructor
      · intro h
        exact absurd h (by simp)
      · intro h
        rw [← this] at h
        exact absurd (List.length_eq_zero.mp h) hs
  · intro resp h
    unfold chatAll at h
    rw [if_neg (by simpa using hne)] at h
    by_cases hs : (stage1 env extract ids).isEmpty
    · rw [if_pos hs] at h
      exact absurd h (by simp)
    · rw [if_neg hs] at h
      simp only [Except.ok.injEq] at h
      rw [← h]
      exact stage1_length env extract ids

/-- Environment for the C6 witness: three requested ids of which `b` has
an uploaded file but no cached text and no ingested chunks. -/
def envW : List Char → DocEnv := fun i =>
  if i = "b".toList then { fileFound := true, cachedText := none, chunkTexts := [] }
  else { fileFound := true, cachedText := some "some text".toList, chunkTexts := [] }

/-- The extraction oracle for the C6 witness. -/
def extractW : List Char → List Char → List Char := fun _ _ => "fact".toList

/-- The synthesis oracle for the C6 witness. -/
def synthW : List (List Char × List Char) → List Char := fun _ => "answer".toList

/-- The requested ids for the C6 witness. -/
def idsW : List (List Char) := ["a".toList, "b".toList, "c".toList]

/-- C6 (witness): the flow theorem applied to a concrete request of three
ids of which one is unloadable; two documents are loadable and the
no-valid-documents error does not occur. -/
theorem chatAll_skip_and_count_witness :
    idsW ≠ [] ∧
    idsW.countP (fun i => loadableDoc (envW i)) = 2 ∧
    (chatAll envW extractW synthW idsW =
        Except.error "No valid documents found".toList ↔
      idsW.countP (fun i => loadableDoc (envW i)) = 0) :=
  ⟨by decide, by decide,
   (chatAll_skip_and_count envW extractW synthW idsW (by decide)).1⟩

/-! ## Claim C5: context assembly under the character budget -/

theorem sumLen_nil : sumLen [] = 0 := rfl

theorem sumLen_cons (x : List Char) (l : List (List Char)) :
    sumLen (x :: l) = x.length + sumLen l := by
  simp [sumLen]

/-- Joining with the two-character separator adds two characters per gap. -/
theorem joinSep_nl2_length_le (cs : List (List Char)) :
    (joinSep nl2 cs).length ≤ sumLen cs + 2 * (cs.length - 1) := by
  induction cs with
  | nil => simp [joinSep, sumLen_nil]
  | cons x t ih =>
    match t with
    | [] => simp [joinSep, sumLen_cons, sumLen_nil]
    | y :: t2 =>
      have hj : joinSep nl2 (x :: y :: t2) = x ++ nl2 ++ joinSep nl2 (y :: t2) := rfl
      have h2 : (nl2 : List Char).length = 2 := rfl
      have htogether := ih
      rw [hj, List.length_append, List.length_append, h2, sumLen_cons]
      simp only [List.length_cons] at htogether ⊢
      omega

/-- The assembly loop invariant: the accumulated character count plus the
included fragments never exceeds the budget, and the output consists of
the first `k` texts, possibly followed by a truncated prefix of text
`k` filling exactly the remaining budget when more than 100 characters
remain, with nothing after it. -/
theorem assembleChunks_invariant (maxChars : Nat) :
    ∀ (texts : List (List Char)) (total : Nat), total ≤ maxChars →
      total + sumLen (assembleChunks maxChars texts total) ≤ maxChars ∧
      (∃ k, (assembleChunks maxChars texts total = texts.take k) ∨
        (∃ t rest2, texts.drop k = t :: rest2 ∧
          assembleChunks maxChars texts total =
            texts.take k ++ [t.take (maxChars - (total + sumLen (texts.take k)))] ∧
          maxChars < total + sumLen (texts.take k) + t.length ∧
          100 < maxChars - (total + sumLen (texts.take k)))) := by
  intro texts
  induction texts with
  | nil =>
    intro total htot
    refine ⟨by simpa [assembleChunks, sumLen_nil], 0, Or.inl rfl⟩
  | cons t rest ih =>
    intro total htot
    unfold assembleChunks
    by_cases hfit : total + t.length ≤ maxChars
    · rw [if_pos hfit]
      obtain ⟨hsum, k, hk⟩ := ih (total + t.length) hfit
      constructor
      · rw [sumLen_cons]
        omega
      · refine ⟨k + 1, ?_⟩
        rcases hk with hk | ⟨u, rest2, hdrop, heq, hover, hroom⟩
        · exact Or.inl (by simp [hk])
        · refine Or.inr ⟨u, rest2, by simpa using hdrop, ?_, ?_, ?_⟩
          · simp only [List.take_succ_cons, List.cons_append, sumLen_cons, ← Nat.add_assoc]
            rw [heq]
          · simp only [List.take_succ_cons, sumLen_cons, ← Nat.add_assoc]
            omega
          · simp only [List.take_succ_cons, sumLen_cons, ← Nat.add_assoc]
            omega
    · rw [if_neg hfit]
      by_cases hroom : 100 < maxChars - total
      · rw [if_pos hroom]
        refine ⟨?_, 0, Or.inr ⟨t, rest, rfl, by simp [sumLen_nil], by simp [sumLen_nil]; omega,
          by simpa [sumLen_nil]⟩⟩
        rw [sumLen_cons, sumLen_nil]
        simp only [List.length_take]
        omega
      · rw [if_neg hroom]
        exact ⟨by simpa [sumLen_nil], 0, Or.inl rfl⟩

/-- C5 (counterexample): with budget 10 and two five-character chunks both
fragments are included (their lengths sum to exactly the budget), but
the assembled context string joins them with the two-character
separator and has length 12, exceeding the budget. -/
theorem context_exceeds_budget :
    10 < (contextString 10 ["aaaaa".toList, "bbbbb".toList]).length := by decide

/-- C5 (amended): for every ranked result list and every character budget,
the total length of the included fragments never exceeds the budget (the
returned context string joins fragments with a two-character separator,
so the string itself can exceed the budget by two characters per gap,
and by no more); the output consists of the first `k` whole chunk texts
in rank order, optionally followed by a truncated prefix of the next
chunk of length exactly budget minus characters used so far, appended
only when more than 100 characters of budget remain, after which
assembly stops without skipping ahead to smaller chunks. -/
theorem context_assembly (texts : List (List Char)) (maxChars : Nat) :
    sumLen (assembleChunks maxChars texts 0) ≤ maxChars ∧
    (contextString maxChars texts).length ≤
      maxChars + 2 * ((assembleChunks maxChars texts 0).length - 1) ∧
    (∃ k, (assembleChunks maxChars texts 0 = texts.take k) ∨
      (∃ t rest2, texts.drop k = t :: rest2 ∧
        assembleChunks maxChars texts 0 =
          texts.take k ++ [t.take (maxChars - sumLen (texts.take k))] ∧
        maxChars < sumLen (texts.take k) + t.length ∧
        100 < maxChars - sumLen (texts.take k))) := by
  obtain ⟨hsum, k, hk⟩ := assembleChunks_invariant maxChars texts 0 (Nat.zero_le _)
  simp only [Nat.zero_add] at hsum hk
  refine ⟨hsum, ?_, ⟨k, hk⟩⟩
  calc (contextString maxChars texts).length
      ≤ sumLen (assembleChunks maxChars texts 0) +
          2 * ((assembleChunks maxChars texts 0).length - 1) :=
        joinSep_nl2_length_le _
    _ ≤ maxChars + 2 * ((assembleChunks maxChars texts 0).length - 1) := by omega

/-! ## Claims C1 and C2: score fusion and result ordering -/

theorem mem_insertDesc {y x : SearchResult} {l : List SearchResult} :
    y ∈ insertDesc x l ↔ y = x ∨ y ∈ l := by
  induction l with
  | nil => simp [insertDesc]
  | cons h t ih =>
    unfold insertDesc
    split
    · simp
    · simp only [List.mem_cons, ih]
      tauto

theorem pairwise_insertDesc {x : SearchResult} {l : List SearchResult}
    (hl : l.Pairwise (fun a b => b.score ≤ a.score)) :
    (insertDesc x l).Pairwise (fun a b => b.score ≤ a.score) := by
  induction l with
  | nil => simp [insertDesc]
  | cons h t ih =>
    unfold insertDesc
    rw [List.pairwise_cons] at hl
    split
    · rename_i hle
      rw [List.pairwise_cons]
      refine ⟨?_, List.pairwise_cons.mpr hl⟩
      intro y hy
      rcases List.mem_cons.mp hy with rfl | hyt
      · exact hle
      · exact le_trans (hl.1 y hyt) hle
    · rename_i hgt
      push_neg at hgt
      rw [List.pairwise_cons]
      refine ⟨?_, ih hl.2⟩
      intro y hy
      rcases mem_insertDesc.mp hy with rfl | hyt
      · exact le_of_lt hgt
      · exact hl.1 y hyt

theorem sortDesc_pairwise (l : List SearchResult) :
    (sortDesc l).Pairwise (fun a b => b.score ≤ a.score) := by
  induction l with
  | nil => exact List.Pairwise.nil
  | cons x t ih => exact pairwise_insertDesc ih

theorem filter_insertDesc_eq {x : SearchResult} {c : ℚ} (hx : x.score = c)
    (l : List SearchResult) :
    (insertDesc x l).filter (fun r => decide (r.score = c)) =
      x :: l.filter (fun r => decide (r.score = c)) := by
  induction l with
  | nil => simp [insertDesc, hx]
  | cons h t ih =>
    unfold insertDesc
    split
    · simp [hx]
    · rename_i hgt
      push_neg at hgt
      have hh : ¬ h.score = c := by
        rw [← hx]
        exact ne_of_gt hgt
      have hne : ¬(decide (h.score = c) = true) := by simpa using hh
      simp only [List.filter_cons]
      rw [if_neg hne, if_neg hne]
      exact ih

theorem filter_insertDesc_ne {x : SearchResult} {c : ℚ} (hx : ¬ x.score = c)
    (l : List SearchResult) :
    (insertDesc x l).filter (fun r => decide (r.score = c)) =
      l.filter (fun r => decide (r.score = c)) := by
  induction l with
  | nil => simp [insertDesc, hx]
  | cons h t ih =>
    unfold insertDesc
    split
    · have hne : ¬(decide (x.score = c) = true) := by simpa using hx
      simp only [List.filter_cons]
      rw [if_neg hne]
    · simp only [List.filter_cons]
      by_cases hh : h.score = c
      · have hpos : decide (h.score = c) = true := by simpa using hh
        rw [if_pos hpos, if_pos hpos, ih]
      · have hne : ¬(decide (h.score = c) = true) := by simpa using hh
        rw [if_neg hne, if_neg hne]
        exact ih

theorem mem_sortDesc {r : SearchResult} {l : List SearchResult} :
    r ∈ sortDesc l ↔ r ∈ l := by
  induction l with
  | nil => simp [sortDesc]
  | cons x t ih =>
    unfold sortDesc
    rw [mem_insertDesc]
    simp [ih]

/-- The stable descending sort preserves, for every score value, the
sublist of results carrying that score, in their original order. -/
theorem sortDesc_filter (c : ℚ) (l : List SearchResult) :
    (sortDesc l).filter (fun r => decide (r.score = c)) =
      l.filter (fun r => decide (r.score = c)) := by
  induction l with
  | nil => rfl
  | cons x t ih =>
    show (insertDesc x (sortDesc t)).filter _ = _
    by_cases hx : x.score = c
    · rw [filter_insertDesc_eq hx, ih, List.filter_cons]
      simp [hx]
    · rw [filter_insertDesc_ne hx, ih, List.filter_cons]
      simp [hx]

theorem fuseAux_vector_zero (kw md : List ℚ) (rows : List StoreRow) :
    ∀ (i : Nat) (r : SearchResult), r ∈ fuseAux kw md i (rows.map formatResult) →
      r.vector_score = 0 ∧
      r.score = 3/10 * r.keyword_score + 1/10 * r.metadata_score := by
  induction rows with
  | nil => intro i r hr; simp [fuseAux] at hr
  | cons row rest ih =>
    intro i r hr
    simp only [List.map_cons] at hr
    unfold fuseAux at hr
    rcases List.mem_cons.mp hr with rfl | htail
    · constructor
      · rfl
      · simp only [mkResult, formatResult, Option.getD_none]
        ring
    · exact ih (i + 1) r htail

/-- C1 (code_bug evidence): for every candidate list delivered by
`VectorStore.search` (whose rows carry a `distance` key but no `score`
key), every fused result has `vector_score = 0` — `doc.get('score',
0.0)` always takes its default — and hence a final score of
`0.3 * keyword + 0.1 * metadata`, ignoring the index-supplied
similarity entirely. -/
theorem fuse_ignores_vector_similarity (rows : List StoreRow) (kw md : List ℚ)
    (r : SearchResult) (hr : r ∈ fuseScores (rows.map formatResult) kw md) :
    r.vector_score = 0 ∧
    r.score = 3/10 * r.keyword_score + 1/10 * r.metadata_score := by
  unfold fuseScores at hr
  exact fuseAux_vector_zero kw md rows 0 r (mem_sortDesc.mp hr)

/-- A concrete store row with similarity information: distance 1/4. -/
def rowW : StoreRow :=
  { text := "net revenue 2023".toList
    metadata :=
      { filename := some "fin.pdf".toList, section_type := none, year := none,
        chunk_index := some 3, file_id := some "f1".toList }
    distance := 1/4
    id := "f1_chunk_3".toList }

/-- C1 (witness): the fused result for a concrete formatted store row
with keyword score 4/5 and metadata score 1/2 has vector score 0 and
final score 0.3 * 4/5 + 0.1 * 1/2. -/
theorem fuse_ignores_vector_similarity_witness :
    (mkResult (formatResult rowW) (4/5) (1/2)).vector_score = 0 ∧
    (mkResult (formatResult rowW) (4/5) (1/2)).score =
      3/10 * (mkResult (formatResult rowW) (4/5) (1/2)).keyword_score +
        1/10 * (mkResult (formatResult rowW) (4/5) (1/2)).metadata_score :=
  fuse_ignores_vector_similarity [rowW] [4/5] [1/2]
    (mkResult (formatResult rowW) (4/5) (1/2)) (by decide)

/-- C2: whenever the engine search returns (no scoring exception), the
returned list is sorted non-increasing by final score, and for every
score value the results carrying it appear as a prefix of the
corresponding results of the unsorted fused list (which is in vector
candidate order) — exactly stable descending sorting followed by the
`top_k` truncation. -/
theorem engineSearch_sorted_stable (lg : ℚ → ℚ) (vres : List CandidateDoc)
    (terms : List (List Char)) (k : Nat) (out : List SearchResult)
    (h : engineSearch lg vres terms k = some out) :
    out.Pairwise (fun a b => b.score ≤ a.score) ∧
    ∀ (c : ℚ) (kw : List ℚ), bm25 lg (3/2) (3/4) vres terms = some kw →
      ∃ tail, (fuseAux kw (metadataBoost vres terms) 0 vres).filter
          (fun r => decide (r.score = c)) =
        out.filter (fun r => decide (r.score = c)) ++ tail := by
  unfold engineSearch at h
  split at h
  · simp only [Option.some.injEq] at h
    subst h
    refine ⟨List.Pairwise.nil, ?_⟩
    intro c kw _
    exact ⟨(fuseAux kw (metadataBoost vres terms) 0 vres).filter
      (fun r => decide (r.score = c)), by simp⟩
  · split at h
    · exact absurd h (by simp)
    · rename_i kw0 hkw0
      simp only [Option.some.injEq] at h
      subst h
      constructor
      · exact List.Pairwise.sublist (List.take_sublist _ _) (sortDesc_pairwise _)
      · intro c kw hkw
        rw [hkw0] at hkw
        injection hkw with hkw
        subst hkw
        unfold fuseScores
        refine ⟨((sortDesc (fuseAux kw0 (metadataBoost vres terms) 0 vres)).drop k).filter
          (fun r => decide (r.score = c)), ?_⟩
        rw [← List.filter_append, List.take_append_drop, sortDesc_filter]

/-- Empty metadata dict. -/
def mdNone : Metadata := ⟨none, none, none, none, none⟩

/-- A one-character candidate document for witnesses. -/
def docA : CandidateDoc :=
  { text := "a".toList, metadata := mdNone, distance := 0, score := none }

/-- A concrete stand-in for `math.log`, satisfying the nonnegativity
property of the logarithm on `[1, ∞)` that the theorems assume. -/
def lgW : ℚ → ℚ := fun x => x - 1

/-- C2 (witness): the ordering theorem applied to a concrete one-document
search; the single result has final score 3/10 and both the sortedness
and the stability prefix hold. -/
theorem engineSearch_sorted_stable_witness :
    ([mkResult docA 1 0].Pairwise (fun a b => b.score ≤ a.score)) ∧
    (∃ tail, (fuseAux [1] (metadataBoost [docA] ["a".toList]) 0 [docA]).filter
        (fun r => decide (r.score = 3/10)) =
      [mkResult docA 1 0].filter (fun r => decide (r.score = 3/10)) ++ tail) :=
  ⟨(engineSearch_sorted_stable lgW [docA] ["a".toList] 15 [mkResult docA 1 0]
      (by decide)).1,
   (engineSearch_sorted_stable lgW [docA] ["a".toList] 15 [mkResult docA 1 0]
      (by decide)).2 (3/10) [1] (by decide)⟩

/-! ## Claims C3 and C8: BM25 range, zero-df terms, and totality -/

theorem containsSub_nil (hay : List Char) : containsSub [] hay = true := by
  cases hay <;> simp [containsSub, List.isPrefixOf]

theorem countFromF_eq_zero {n : Char} {ns : List Char} :
    ∀ (fuel : Nat) (hay : List Char), containsSub (n :: ns) hay = false →
      countFromF n ns fuel hay = 0 := by
  intro fuel
  induction fuel with
  | zero => intro hay _; rfl
  | succ fuel ih =>
    intro hay hcon
    match hay with
    | [] => rfl
    | c :: rest =>
      unfold containsSub at hcon
      simp only [Bool.or_eq_false_iff] at hcon
      unfold countFromF
      rw [if_neg (by simp [hcon.1])]
      exact ih rest hcon.2

theorem countSubstr_eq_zero {t hay : List Char}
    (h : containsSub t hay = false) : countSubstr t hay = 0 := by
  match t with
  | [] => rw [containsSub_nil] at h; exact absurd h (by simp)
  | n :: ns => exact countFromF_eq_zero hay.length hay h

theorem avgdlQ_nonneg (docs : List CandidateDoc) : 0 ≤ avgdlQ docs := by
  unfold avgdlQ
  split
  · norm_num
  · apply div_nonneg
    · apply List.sum_nonneg
      intro x hx
      obtain ⟨d, _, rfl⟩ := List.mem_map.mp hx
      positivity
    · positivity

theorem avgdlQ_pos {docs : List CandidateDoc}
    (h : ∃ d ∈ docs, 0 < docLen d) : 0 < avgdlQ docs := by
  obtain ⟨d, hd, hlen⟩ := h
  unfold avgdlQ
  rw [if_neg (by simp [List.isEmpty_iff]; rintro rfl; simp at hd)]
  apply div_pos
  · have hmem : ((docLen d : ℚ)) ∈ docs.map (fun d => (docLen d : ℚ)) :=
      List.mem_map.mpr ⟨d, hd, rfl⟩
    have hone : (1 : ℚ) ≤ (docLen d : ℚ) := by exact_mod_cast hlen
    have := List.single_le_sum (l := docs.map (fun d => (docLen d : ℚ)))
      (by intro x hx; obtain ⟨d', _, rfl⟩ := List.mem_map.mp hx; positivity)
      _ hmem
    linarith
  · have : docs.length ≠ 0 := by
      intro h0
      rw [List.length_eq_zero] at h0
      subst h0
      simp at hd
    have : 0 < docs.length := Nat.pos_of_ne_zero this
    exact_mod_cast this

theorem idfQ_nonneg {lg : ℚ → ℚ} (hlg : ∀ x : ℚ, 1 ≤ x → 0 ≤ lg x)
    {N df : Nat} (hdf : df ≤ N) : 0 ≤ idfQ lg N df := by
  unfold idfQ
  split
  · apply hlg
    have hcast : (df : ℚ) ≤ (N : ℚ) := by exact_mod_cast hdf
    have hnum : (0 : ℚ) < (N : ℚ) - (df : ℚ) + 1/2 := by linarith
    have hden : (0 : ℚ) < (df : ℚ) + 1/2 := by positivity
    have := div_pos hnum hden
    linarith
  · norm_num

theorem checkedDiv_eq_some {a b v : ℚ} (h : checkedDiv a b = some v) :
    b ≠ 0 ∧ v = a / b := by
  unfold checkedDiv at h
  split at h
  · exact absurd h (by simp)
  · rename_i hb
    simp only [Option.some.injEq] at h
    exact ⟨hb, h.symm⟩

theorem contribFor_nonneg {lg : ℚ → ℚ} (hlg : ∀ x : ℚ, 1 ≤ x → 0 ≤ lg x)
    {docs : List CandidateDoc} {t : List Char} {d : CandidateDoc} {v : ℚ}
    (h : contribFor lg (3/2) (3/4) docs t d = some v) : 0 ≤ v := by
  simp only [contribFor] at h
  by_cases htf : tfCount t d = 0
  · rw [if_pos htf] at h
    simp only [Option.some.injEq] at h
    subst h
    exact le_refl 0
  · rw [if_neg htf] at h
    match hcd : checkedDiv ((docLen d : ℚ)) (avgdlQ docs) with
    | none => rw [hcd] at h; exact absurd h (by simp)
    | some r =>
      rw [hcd] at h
      obtain ⟨havg, hr⟩ := checkedDiv_eq_some hcd
      obtain ⟨hden, hv⟩ := checkedDiv_eq_some h
      have havgpos : 0 < avgdlQ docs :=
        lt_of_le_of_ne (avgdlQ_nonneg docs) (fun hc => havg hc.symm)
      have hr0 : 0 ≤ r := by
        rw [hr]
        positivity
      have htf1 : (1 : ℚ) ≤ (tfCount t d : ℚ) := by
        exact_mod_cast Nat.one_le_iff_ne_zero.mpr htf
      have hidf : 0 ≤ idfQ lg docs.length (dfCount docs t) :=
        idfQ_nonneg hlg (List.countP_le_length _)
      rw [hv]
      apply div_nonneg
      · have htfn : (0 : ℚ) ≤ (tfCount t d : ℚ) := by positivity
        have h52 : (0 : ℚ) ≤ (3/2 + 1 : ℚ) := by norm_num
        exact mul_nonneg (mul_nonneg hidf htfn) h52
      · nlinarith

theorem optAdd_eq_some {o s : Option ℚ} {v : ℚ} (h : optAdd o s = some v) :
    ∃ a b, o = some a ∧ s = some b ∧ v = a + b := by
  match o, s with
  | some a, some b =>
    simp only [optAdd, Option.some.injEq] at h
    exact ⟨a, b, rfl, rfl, h.symm⟩
  | some a, none => simp [optAdd] at h
  | none, s2 => simp [optAdd] at h

theorem sumOpt_nonneg :
    ∀ {l : List (Option ℚ)} {s : ℚ}, sumOpt l = some s →
      (∀ o ∈ l, ∀ v : ℚ, o = some v → 0 ≤ v) → 0 ≤ s := by
  intro l
  induction l with
  | nil =>
    intro s hs _
    simp only [sumOpt, Option.some.injEq] at hs
    subst hs
    exact le_refl 0
  | cons o os ih =>
    intro s hs hall
    unfold sumOpt at hs
    obtain ⟨a, b, ho, hsum, rfl⟩ := optAdd_eq_some hs
    have h1 : 0 ≤ a := hall o (by simp) a ho
    have h2 : 0 ≤ b := ih hsum (fun o' ho' => hall o' (by simp [ho']))
    linarith

theorem optCons_eq_some {o : Option ℚ} {s : Option (List ℚ)} {vs : List ℚ}
    (h : optCons o s = some vs) :
    ∃ a t, o = some a ∧ s = some t ∧ vs = a :: t := by
  match o, s with
  | some a, some t =>
    simp only [optCons, Option.some.injEq] at h
    exact ⟨a, t, rfl, rfl, h.symm⟩
  | some a, none => simp [optCons] at h
  | none, s2 => simp [optCons] at h

theorem mapOpt_mem {f : α → Option ℚ} :
    ∀ {l : List α} {ys : List ℚ}, mapOpt f l = some ys →
      ∀ y ∈ ys, ∃ x ∈ l, f x = some y := by
  intro l
  induction l with
  | nil =>
    intro ys hys y hy
    simp only [mapOpt, Option.some.injEq] at hys
    subst hys
    simp at hy
  | cons x xs ih =>
    intro ys hys y hy
    unfold mapOpt at hys
    obtain ⟨a, t, hf, hm, rfl⟩ := optCons_eq_some hys
    rcases List.mem_cons.mp hy with rfl | htail
    · exact ⟨x, by simp, hf⟩
    · obtain ⟨x', hx', hfx'⟩ := ih hm y htail
      exact ⟨x', by simp [hx'], hfx'⟩

theorem le_maxQ_init (a : ℚ) (l : List ℚ) : a ≤ maxQ a l := by
  induction l generalizing a with
  | nil => exact le_refl a
  | cons b t ih =>
    unfold maxQ
    split
    · exact le_trans (by assumption) (ih b)
    · exact ih a

theorem mem_le_maxQ {x : ℚ} {l : List ℚ} (hx : x ∈ l) (a : ℚ) : x ≤ maxQ a l := by
  induction l generalizing a with
  | nil => simp at hx
  | cons b t ih =>
    unfold maxQ
    rcases List.mem_cons.mp hx with rfl | hxt
    · split
      · exact le_maxQ_init x t
      · rename_i hab
        push_neg at hab
        exact le_trans (le_of_lt hab) (le_maxQ_init a t)
    · exact ih hxt _

theorem mem_le_bm25Max {x : ℚ} {raws : List ℚ} (hx : x ∈ raws) :
    x ≤ bm25Max raws := by
  match raws with
  | [] => simp at hx
  | r :: rs =>
    show x ≤ maxQ r rs
    rcases List.mem_cons.mp hx with rfl | hxt
    · exact le_maxQ_init x rs
    · exact mem_le_maxQ hxt r

theorem bm25Normalize_bounds {raws : List ℚ} (hraws : ∀ x ∈ raws, 0 ≤ x) :
    ∀ s ∈ bm25Normalize raws, 0 ≤ s ∧ s ≤ 1 := by
  intro s hs
  unfold bm25Normalize at hs
  split at hs
  · rename_i hpos
    obtain ⟨x, hx, rfl⟩ := List.mem_map.mp hs
    refine ⟨div_nonneg (hraws x hx) (le_of_lt hpos), ?_⟩
    rw [div_le_one hpos]
    exact mem_le_bm25Max hx
  · rename_i hneg
    push_neg at hneg
    have h0 : 0 ≤ s := hraws s hs
    have h1 : s ≤ bm25Max raws := mem_le_bm25Max hs
    exact ⟨h0, by linarith⟩

/-- C3: whenever the BM25 scorer returns scores for a non-empty candidate
set, every normalized score lies in [0,1]; and a query term with zero
document frequency across the candidate set contributes exactly zero to
every chunk's raw score. The abstract `lg` stands for `math.log`, which
is nonnegative on `[1, ∞)`. -/
theorem bm25_unit_interval_and_zero_df (lg : ℚ → ℚ)
    (hlg : ∀ x : ℚ, 1 ≤ x → 0 ≤ lg x)
    (docs : List CandidateDoc) (terms : List (List Char)) (scores : List ℚ)
    (hne : docs ≠ [])
    (h : bm25 lg (3/2) (3/4) docs terms = some scores) :
    (∀ s ∈ scores, 0 ≤ s ∧ s ≤ 1) ∧
    (∀ t ∈ terms, dfCount docs t = 0 → ∀ d ∈ docs,
      contribFor lg (3/2) (3/4) docs t d = some 0) := by
  constructor
  · unfold bm25 at h
    split at h
    · exact absurd h (by simp)
    · rename_i raws hraws
      simp only [Option.some.injEq] at h
      subst h
      apply bm25Normalize_bounds
      intro x hx
      obtain ⟨d, _, hdx⟩ := mapOpt_mem hraws x hx
      unfold bm25DocRaw at hdx
      apply sumOpt_nonneg hdx
      intro o ho v hov
      obtain ⟨t, _, rfl⟩ := List.mem_map.mp ho
      exact contribFor_nonneg hlg hov
  · intro t ht hdf d hd
    match t with
    | [] =>
      exfalso
      unfold dfCount at hdf
      have : ∀ d' ∈ docs,
          containsSub (pyLower []) (pyLower d'.text) = true := by
        intro d' _
        exact containsSub_nil _
      rw [List.countP_eq_length.mpr (by intro a ha; simpa using this a ha)] at hdf
      exact hne (List.length_eq_zero.mp hdf)
    | c :: cs =>
      have hcon : containsSub (pyLower (c :: cs)) (pyLower d.text) = false := by
        unfold dfCount at hdf
        have := List.countP_eq_zero.mp hdf d hd
        simpa using this
      have htf : tfCount (c :: cs) d = 0 := by
        unfold tfCount
        exact countSubstr_eq_zero hcon
      unfold contribFor
      rw [if_pos htf]

/-- A candidate whose text is a single space: zero words, so `avgdl = 0`. -/
def docSpace : CandidateDoc :=
  { text := " ".toList, metadata := mdNone, distance := 0, score := none }

/-- C8 (counterexample): a candidate set of whitespace-only chunks with a
whitespace query term occurring in them drives `avgdl` to zero and the
BM25 computation into the division `doc_length / avgdl`, i.e. a Python
`ZeroDivisionError` (modelled as `none`). -/
theorem bm25_division_fault :
    bm25 lgW (3/2) (3/4) [docSpace] [" ".toList] = none := by decide

theorem sumOpt_isSome :
    ∀ {l : List (Option ℚ)}, (∀ o ∈ l, o.isSome) → ∃ s, sumOpt l = some s := by
  intro l
  induction l with
  | nil => intro _; exact ⟨0, rfl⟩
  | cons o os ih =>
    intro hall
    obtain ⟨a, ha⟩ := Option.isSome_iff_exists.mp (hall o (by simp))
    obtain ⟨s, hs⟩ := ih (fun o' ho' => hall o' (by simp [ho']))
    exact ⟨a + s, by unfold sumOpt; rw [ha, hs]; rfl⟩

theorem mapOpt_isSome {f : α → Option ℚ} :
    ∀ {l : List α}, (∀ x ∈ l, (f x).isSome) →
      ∃ ys, mapOpt f l = some ys ∧ ys.length = l.length := by
  intro l
  induction l with
  | nil => intro _; exact ⟨[], rfl, rfl⟩
  | cons x xs ih =>
    intro hall
    obtain ⟨v, hv⟩ := Option.isSome_iff_exists.mp (hall x (by simp))
    obtain ⟨vs, hvs, hlen⟩ := ih (fun x' hx' => hall x' (by simp [hx']))
    refine ⟨v :: vs, ?_, by simp [hlen]⟩
    unfold mapOpt
    rw [hv, hvs]
    rfl

theorem contribFor_isSome {lg : ℚ → ℚ} {docs : List CandidateDoc}
    {t : List Char} {d : CandidateDoc} (hpos : 0 < avgdlQ docs) :
    (contribFor lg (3/2) (3/4) docs t d).isSome := by
  unfold contribFor
  by_cases htf : tfCount t d = 0
  · rw [if_pos htf]
    rfl
  · rw [if_neg htf]
    have hne : avgdlQ docs ≠ 0 := ne_of_gt hpos
    have hcd : checkedDiv ((docLen d : ℚ)) (avgdlQ docs) =
        some ((docLen d : ℚ) / avgdlQ docs) := by
      unfold checkedDiv
      rw [if_neg hne]
    simp only [hcd]
    have hr : (0 : ℚ) ≤ (docLen d : ℚ) / avgdlQ docs := by positivity
    have htf1 : (1 : ℚ) ≤ (tfCount t d : ℚ) := by
      exact_mod_cast Nat.one_le_iff_ne_zero.mpr htf
    unfold checkedDiv
    rw [if_neg (by nlinarith)]
    rfl

theorem maxQ_replicate_zero : ∀ n : Nat, maxQ 0 (List.replicate n (0 : ℚ)) = 0 := by
  intro n
  induction n with
  | zero => rfl
  | succ n ih =>
    show maxQ (if (0:ℚ) ≤ 0 then (0:ℚ) else 0) (List.replicate n 0) = 0
    rw [if_pos (le_refl 0)]
    exact ih

theorem mapOpt_empty_terms (lg : ℚ → ℚ) (docs : List CandidateDoc) :
    ∀ l : List CandidateDoc,
      mapOpt (bm25DocRaw lg (3/2) (3/4) docs []) l =
        some (List.replicate l.length 0) := by
  intro l
  induction l with
  | nil => rfl
  | cons d rest ih =>
    unfold mapOpt
    rw [show bm25DocRaw lg (3/2) (3/4) docs [] d = some 0 from rfl, ih]
    simp [optCons, List.replicate_succ]

theorem bm25Normalize_replicate_zero (n : Nat) :
    bm25Normalize (List.replicate n (0 : ℚ)) = List.replicate n 0 := by
  match n with
  | 0 =>
    unfold bm25Normalize
    split <;> simp
  | n + 1 =>
    unfold bm25Normalize
    have hmx : bm25Max (List.replicate (n + 1) (0 : ℚ)) = 0 := by
      rw [List.replicate_succ]
      show maxQ 0 (List.replicate n 0) = 0
      exact maxQ_replicate_zero n
    rw [hmx, if_neg (lt_irrefl 0)]

theorem bm25_empty_terms (lg : ℚ → ℚ) (docs : List CandidateDoc) :
    bm25 lg (3/2) (3/4) docs [] = some (List.replicate docs.length 0) := by
  unfold bm25
  rw [mapOpt_empty_terms lg docs docs]
  simp only
  rw [bm25Normalize_replicate_zero]

/-- C8 (amended): the scoring arithmetic is total on an empty candidate
set (where `avgdl` is taken as 1), on empty query terms (every chunk
scores 0), and whenever some candidate text contains at least one
whitespace-separated word (so that `avgdl > 0`); metadata scoring is
total and scores every chunk. Totality fails only for a candidate set
whose every chunk has zero words while some query term occurs in a
chunk's text, which divides by `avgdl = 0` (`bm25_division_fault`). -/
theorem bm25_totality (lg : ℚ → ℚ) (docs : List CandidateDoc)
    (terms : List (List Char)) :
    bm25 lg (3/2) (3/4) [] terms = some [] ∧
    avgdlQ [] = 1 ∧
    bm25 lg (3/2) (3/4) docs [] = some (List.replicate docs.length 0) ∧
    (metadataBoost docs terms).length = docs.length ∧
    ((∃ d ∈ docs, 0 < docLen d) → ∃ scores,
      bm25 lg (3/2) (3/4) docs terms = some scores ∧
      scores.length = docs.length) := by
  refine ⟨?_, rfl, bm25_empty_terms lg docs, by simp [metadataBoost], ?_⟩
  · unfold bm25
    rw [show mapOpt (bm25DocRaw lg (3/2) (3/4) [] terms) [] = some [] from rfl]
    simp only
    unfold bm25Normalize
    split <;> simp
  · intro hpos
    have havg := avgdlQ_pos hpos
    have hsome : ∀ d ∈ docs, (bm25DocRaw lg (3/2) (3/4) docs terms d).isSome := by
      intro d _
      unfold bm25DocRaw
      obtain ⟨s, hs⟩ := sumOpt_isSome (l := terms.map
        (fun t => contribFor lg (3/2) (3/4) docs t d))
        (by
          intro o ho
          obtain ⟨t, _, rfl⟩ := List.mem_map.mp ho
          exact contribFor_isSome havg)
      simp [hs]
    obtain ⟨raws, hraws, hlen⟩ := mapOpt_isSome hsome
    refine ⟨bm25Normalize raws, ?_, ?_⟩
    · unfold bm25
      rw [hraws]
    · unfold bm25Normalize
      split
      · simp [hlen]
      · exact hlen

/-- C8 (witness): the totality theorem applied to the one-word candidate
`docA`; the BM25 computation succeeds. -/
theorem bm25_totality_witness :
    (bm25 lgW (3/2) (3/4) [docA] ["a".toList]).isSome = true := by
  obtain ⟨scores, hs, -⟩ := (bm25_totality lgW [docA] ["a".toList]).2.2.2.2
    ⟨docA, by simp, by decide⟩
  rw [hs]
  rfl

/-- C3 (witness): the range theorem applied to a concrete one-document
search whose single normalized score is 1, which lies in [0,1]. -/
theorem bm25_unit_interval_witness :
    bm25 lgW (3/2) (3/4) [docA] ["a".toList] = some [1] ∧
    (0 ≤ (1 : ℚ) ∧ (1 : ℚ) ≤ 1) :=
  ⟨by decide,
   (bm25_unit_interval_and_zero_df lgW (fun x hx => by simp [lgW]; linarith)
      [docA] ["a".toList] [1] (by simp) (by decide)).1 1 (by simp)⟩

/-! ## Claim C4: chunk round-trip -/

/-- The concatenation of paragraphs, each followed by the separator: the
string the chunk loop accumulates when it never splits. -/
def flatTerm : List (List Char) → List Char
  | [] => []
  | p :: rest => p ++ nl2 ++ flatTerm rest

theorem splitNl2_ne_nil (s : List Char) : splitNl2 s ≠ [] := by
  induction s using splitNl2.induct <;> simp [splitNl2] <;> split <;> simp

theorem flatTerm_splitNl2 (s : List Char) : flatTerm (splitNl2 s) = s ++ nl2 := by
  induction s using splitNl2.induct with
  | case1 => rfl
  | case2 rest ih =>
    show flatTerm ([] :: splitNl2 rest) = _
    unfold flatTerm
    rw [ih]
    rfl
  | case3 c rest hny heq =>
    exact absurd heq (splitNl2_ne_nil rest)
  | case4 c rest hny h t heq ih =>
    simp only [splitNl2, heq]
    rw [heq] at ih
    unfold flatTerm at ih ⊢
    simp only [List.cons_append]
    rw [ih]

theorem dropWhile_append_all {p : Char → Bool} :
    ∀ {l₁ : List Char} (l₂ : List Char), (∀ c ∈ l₁, p c = true) →
      (l₁ ++ l₂).dropWhile p = l₂.dropWhile p := by
  intro l₁
  induction l₁ with
  | nil => intro l₂ _; rfl
  | cons c t ih =>
    intro l₂ h
    rw [List.cons_append, List.dropWhile_cons, if_pos (h c (by simp))]
    exact ih l₂ (fun c' hc' => h c' (by simp [hc']))

theorem dropWhile_append_ne {p : Char → Bool} :
    ∀ {l₁ : List Char} (l₂ : List Char), l₁.dropWhile p ≠ [] →
      (l₁ ++ l₂).dropWhile p = l₁.dropWhile p ++ l₂ := by
  intro l₁
  induction l₁ with
  | nil => intro l₂ h; simp at h
  | cons c t ih =>
    intro l₂ h
    by_cases hc : p c
    · rw [List.dropWhile_cons, if_pos hc] at h
      rw [List.cons_append, List.dropWhile_cons, if_pos hc,
        List.dropWhile_cons, if_pos hc]
      exact ih l₂ h
    · rw [List.cons_append, List.dropWhile_cons, if_neg hc,
        List.dropWhile_cons, if_neg hc]
      rfl

/-- Appending whitespace-only text does not change `str.strip()`. -/
theorem pyStrip_append_ws {s w : List Char} (hw : ∀ c ∈ w, isSpc c = true) :
    pyStrip (s ++ w) = pyStrip s := by
  unfold pyStrip stripL stripR
  by_cases h : s.dropWhile isSpc = []
  · have h1 : (s ++ w).dropWhile isSpc = [] := by
      rw [dropWhile_append_all w (List.dropWhile_eq_nil_iff.mp h)]
      exact List.dropWhile_eq_nil_iff.mpr hw
    rw [h1, h]
  · rw [dropWhile_append_ne w h, List.reverse_append,
      dropWhile_append_all _ (fun c hc => hw c (List.mem_reverse.mp hc))]

theorem pyStrip_length_le (s : List Char) : (pyStrip s).length ≤ s.length := by
  unfold pyStrip stripL stripR
  have h1 := (List.dropWhile_sublist (l := s) isSpc).length_le
  have h2 := (List.dropWhile_sublist (l := (s.dropWhile isSpc).reverse) isSpc).length_le
  simp only [List.length_reverse] at h2 ⊢
  omega

/-- When every prospective chunk stays within the 500-character bound, the
chunk loop never splits and produces at most the single final stripped
chunk. -/
theorem chunkLoop_no_split :
    ∀ (paras : List (List Char)) (current : List Char),
      current.length + (flatTerm paras).length ≤ 502 →
      chunkLoop paras current =
        if pyStrip (current ++ flatTerm paras) = [] then []
        else [pyStrip (current ++ flatTerm paras)] := by
  intro paras
  induction paras with
  | nil =>
    intro current h
    unfold chunkLoop
    simp [flatTerm]
  | cons p rest ih =>
    intro current h
    have hflat : (flatTerm (p :: rest)).length =
        p.length + 2 + (flatTerm rest).length := by
      show (p ++ nl2 ++ flatTerm rest).length = _
      simp [nl2]
      omega
    rw [hflat] at h
    have hptake : p.take 1000 = p := List.take_of_length_le (by omega)
    unfold chunkLoop
    rw [hptake, if_neg (by rintro ⟨hgt, -⟩; omega)]
    rw [ih (current ++ p ++ nl2) (by simp [nl2]; omega)]
    have harr : (current ++ p ++ nl2) ++ flatTerm rest =
        current ++ flatTerm (p :: rest) := by
      show _ = current ++ (p ++ nl2 ++ flatTerm rest)
      simp [List.append_assoc]
    rw [harr]

/-- C4 (counterexample): the text `" a"` chunks to `["a"]` (chunks are
stripped), so re-assembly yields `"a"`, not the original text
byte-for-byte. -/
theorem chunk_roundtrip_fails :
    joinSep nl2 (chunkText " a".toList) ≠ " a".toList := by decide

/-- C4 (amended): re-assembling the chunks with the fixed separator
reproduces the original text only under conditions that rule out
stripping and overlap: if the text is at most 500 characters (a single
chunk, so no 50-character overlap duplication ever occurs) and is
already whitespace-stripped, the round-trip is exact. In general the
chunker strips leading/trailing whitespace and duplicates overlap
characters across chunk boundaries, so byte-for-byte reconstruction
fails (`chunk_roundtrip_fails`). -/
theorem chunk_roundtrip_stripped (text : List Char)
    (hlen : text.length ≤ 500) (hstrip : pyStrip text = text) :
    joinSep nl2 (chunkText text) = text := by
  unfold chunkText
  have hflat : flatTerm (splitNl2 text) = text ++ nl2 := flatTerm_splitNl2 text
  have hinv : ([] : List Char).length + (flatTerm (splitNl2 text)).length ≤ 502 := by
    rw [hflat]
    simp [nl2]
    omega
  rw [chunkLoop_no_split (splitNl2 text) [] hinv, List.nil_append, hflat]
  have hstrip2 : pyStrip (text ++ nl2) = text := by
    rw [pyStrip_append_ws (by decide)]
    exact hstrip
  rw [hstrip2]
  by_cases htext : text = []
  · subst htext
    simp [joinSep]
  · rw [if_neg htext]
    have hfil : List.filter (fun c => !(pyStrip c).isEmpty) [text] = [text] := by
      have : (pyStrip text).isEmpty = false := by
        rw [hstrip]
        simpa using htext
      simp [List.filter, this]
    rw [hfil]
    have htake : text.take 1000 = text := List.take_of_length_le (by omega)
    simp [htake, joinSep]

/-- C4 (witness): the amended round-trip theorem evaluated on the short
stripped text `"ab"`. -/
theorem chunk_roundtrip_stripped_witness :
    "ab".toList.length ≤ 500 ∧ pyStrip "ab".toList = "ab".toList ∧
    joinSep nl2 (chunkText "ab".toList) = "ab".toList :=
  ⟨by decide, by decide, chunk_roundtrip_stripped "ab".toList (by decide) (by decide)⟩

end Finstat


